import Mathlib

/-!
Verification of the client-side local history store of the ShAI repository
(`static/js/app.js`: `getLocalHistory`, `saveLocalHistory`, `addToLocalHistory`,
`deleteHistoryItem`, `clearHistory`).

The store persists a JSON-serialized array of history records under the single
localStorage key `"shai-pickup-history"`.  The embedding models:

* JSON values (`Json`) as produced by `JSON.parse`, with numbers restricted to
  integers (none of the store's records contains a number; float syntax is out
  of scope and rejected by the embedded parser);
* `JSON.stringify` (`emitJson`) and `JSON.parse` (`parseJson`) at the level of
  character lists, including string escaping, with a proved
  parse-after-stringify round trip for number-free values;
* the storage slot as `Option String` (the value under the key, `none` when
  absent), with `localStorage.setItem` modelled as always succeeding;
* each store operation as a pure function from the storage slot to the new
  storage slot, paired with the JS return value of the method
  (`none`/`undefined`: neither `addToLocalHistory` nor `deleteHistoryItem`
  has a `return` statement);
* the timestamp field opaquely as a string: `addToLocalHistory` copies
  `data.timestamp` without inspecting it.
-/

namespace ShAI

/-- JSON values as produced by `JSON.parse`; numbers restricted to integers. -/
inductive Json where
  | null : Json
  | bool : Bool → Json
  | num : Int → Json
  | str : String → Json
  | arr : List Json → Json
  | obj : List (String × Json) → Json

/-- Lowercase hexadecimal digit character for `n < 16`. -/
def lowHexChar (n : Nat) : Char :=
  Char.ofNat (n + (if n < 10 then '0'.toNat else 'a'.toNat - 10))

/-- The escape sequence `JSON.stringify` produces for one character of a
string: `\"`, `\\`, the short escapes for the control characters that have
them, `\u00xx` for the remaining control characters, and the character
itself otherwise. -/
def escChar (c : Char) : List Char :=
  if c = '"' then ['\\', '"']
  else if c = '\\' then ['\\', '\\']
  else if c = '\x08' then ['\\', 'b']
  else if c = '\x09' then ['\\', 't']
  else if c = '\x0a' then ['\\', 'n']
  else if c = '\x0c' then ['\\', 'f']
  else if c = '\x0d' then ['\\', 'r']
  else if c.toNat < 0x20 then
    ['\\', 'u', '0', '0', lowHexChar (c.toNat / 16), lowHexChar (c.toNat % 16)]
  else [c]

/-- Escape every character of a string body. -/
def escList : List Char → List Char
  | [] => []
  | c :: cs => escChar c ++ escList cs

/-- A JSON string literal: quote, escaped body, quote. -/
def escString (s : String) : List Char :=
  '"' :: escList s.data ++ ['"']

mutual

/-- `JSON.stringify` (no indentation), producing a character list. -/
def emitJson : Json → List Char
  | .null => 'n' :: 'u' :: 'l' :: 'l' :: []
  | .bool true => 't' :: 'r' :: 'u' :: 'e' :: []
  | .bool false => 'f' :: 'a' :: 'l' :: 's' :: 'e' :: []
  | .num n => (toString n).data
  | .str s => escString s
  | .arr xs => '[' :: emitList xs ++ [']']
  | .obj kvs => '\x7b' :: emitMembers kvs ++ ['\x7d']

/-- Comma-separated stringification of array elements. -/
def emitList : List Json → List Char
  | [] => []
  | [x] => emitJson x
  | x :: y :: rest => emitJson x ++ ',' :: emitList (y :: rest)

/-- Comma-separated stringification of object members, in insertion order. -/
def emitMembers : List (String × Json) → List Char
  | [] => []
  | [(k, v)] => escString k ++ ':' :: emitJson v
  | (k, v) :: m :: rest => escString k ++ ':' :: emitJson v ++ ',' :: emitMembers (m :: rest)

end

/-- `JSON.stringify` as a string-valued function. -/
def stringifyJson (j : Json) : String :=
  String.mk (emitJson j)

mutual

/-- A JSON value mentions no number anywhere. -/
def numFree : Json → Bool
  | .null => true
  | .bool _ => true
  | .num _ => false
  | .str _ => true
  | .arr xs => numFreeList xs
  | .obj kvs => numFreeMembers kvs

/-- All elements of a JSON array are number-free. -/
def numFreeList : List Json → Bool
  | [] => true
  | x :: xs => numFree x && numFreeList xs

/-- All member values of a JSON object are number-free. -/
def numFreeMembers : List (String × Json) → Bool
  | [] => true
  | (_, v) :: rest => numFree v && numFreeMembers rest

end

/-- JSON whitespace. -/
def isBlank (c : Char) : Bool :=
  c = ' ' || c = '\x09' || c = '\x0a' || c = '\x0d'

/-- Discard leading JSON whitespace. -/
def dropBlanks : List Char → List Char
  | [] => []
  | c :: cs => if isBlank c then dropBlanks cs else c :: cs

/-- Value of a hexadecimal digit character. -/
def hexCharVal (c : Char) : Option Nat :=
  if '0' ≤ c ∧ c ≤ '9' then some (c.toNat - '0'.toNat)
  else if 'a' ≤ c ∧ c ≤ 'f' then some (c.toNat - 'a'.toNat + 10)
  else if 'A' ≤ c ∧ c ≤ 'F' then some (c.toNat - 'A'.toNat + 10)
  else none

/-- Consume an expected literal character sequence. -/
def expectChars : List Char → List Char → Option (List Char)
  | [], cs => some cs
  | p :: ps, c :: cs => if c = p then expectChars ps cs else none
  | _ :: _, [] => none

/-- Does the input start with this character? -/
def headIs (c : Char) : List Char → Bool
  | [] => false
  | c1 :: _ => c1 = c

mutual

/-- Parse the body of a JSON string literal (the opening quote already
consumed), returning the decoded characters and the rest of the input.
Unescaped control characters are rejected and escape sequences are decoded.
The fuel argument only bounds recursion depth: one unit of fuel always
consumes at least one input character, so the `length + 1` supplied by the
callers never runs out. -/
def parseStringRest : Nat → List Char → Option (List Char × List Char)
  | 0, _ => none
  | fuel + 1, cs =>
    match cs with
    | [] => none
    | c :: cs1 =>
      if c = '"' then some ([], cs1)
      else if c = '\\' then
        match cs1 with
        | [] => none
        | e :: cs2 =>
          if e = '"' then (parseStringRest fuel cs2).map (fun p => ('"' :: p.1, p.2))
          else if e = '\\' then (parseStringRest fuel cs2).map (fun p => ('\\' :: p.1, p.2))
          else if e = '/' then (parseStringRest fuel cs2).map (fun p => ('/' :: p.1, p.2))
          else if e = 'b' then (parseStringRest fuel cs2).map (fun p => ('\x08' :: p.1, p.2))
          else if e = 'f' then (parseStringRest fuel cs2).map (fun p => ('\x0c' :: p.1, p.2))
          else if e = 'n' then (parseStringRest fuel cs2).map (fun p => ('\x0a' :: p.1, p.2))
          else if e = 'r' then (parseStringRest fuel cs2).map (fun p => ('\x0d' :: p.1, p.2))
          else if e = 't' then (parseStringRest fuel cs2).map (fun p => ('\x09' :: p.1, p.2))
          else if e = 'u' then parseHexEscape fuel cs2
          else none
      else if c.toNat < 0x20 then none
      else (parseStringRest fuel cs1).map (fun p => (c :: p.1, p.2))

/-- Parse the four hex digits of a `\uXXXX` escape and continue with the
string body; a high surrogate must be followed by an escaped low surrogate,
with which it is combined into one character (a lone surrogate has no
counterpart among Lean characters and is rejected). -/
def parseHexEscape : Nat → List Char → Option (List Char × List Char)
  | 0, _ => none
  | fuel + 1, cs =>
    match cs with
    | h1 :: h2 :: h3 :: h4 :: cs3 =>
      match hexCharVal h1, hexCharVal h2, hexCharVal h3, hexCharVal h4 with
      | some a, some b, some c1, some d =>
        let v := ((a * 16 + b) * 16 + c1) * 16 + d
        if v < 0xD800 ∨ 0xE000 ≤ v then
          (parseStringRest fuel cs3).map (fun p => (Char.ofNat v :: p.1, p.2))
        else if v < 0xDC00 then
          match cs3 with
          | e2 :: u2 :: g1 :: g2 :: g3 :: g4 :: cs4 =>
            if e2 = '\\' ∧ u2 = 'u' then
              match hexCharVal g1, hexCharVal g2, hexCharVal g3, hexCharVal g4 with
              | some a2, some b2, some c2, some d2 =>
                let w := ((a2 * 16 + b2) * 16 + c2) * 16 + d2
                if 0xDC00 ≤ w ∧ w < 0xE000 then
                  (parseStringRest fuel cs4).map (fun p =>
                    (Char.ofNat (0x10000 + (v - 0xD800) * 0x400 + (w - 0xDC00)) :: p.1, p.2))
                else none
              | _, _, _, _ => none
            else none
          | _ => none
        else none
      | _, _, _, _ => none
    | _ => none

end

/-- Decimal digit test. -/
def isDecDigit (c : Char) : Bool :=
  '0' ≤ c && c ≤ '9'

/-- Split a maximal run of leading decimal digits off the input. -/
def digitSpan : List Char → List Char × List Char
  | [] => ([], [])
  | c :: cs =>
    if isDecDigit c then
      let p := digitSpan cs
      (c :: p.1, p.2)
    else ([], c :: cs)

/-- Accumulate the value of a digit run. -/
def digitsAccum (acc : Nat) : List Char → Nat
  | [] => acc
  | c :: cs => digitsAccum (acc * 10 + (c.toNat - '0'.toNat)) cs

/-- Parse a JSON integer after an optional leading minus sign (already
consumed when `neg` is set): a nonempty digit run with no superfluous
leading zero, not followed by a fraction or exponent (floats are outside
this model). -/
def parseNumTail (neg : Bool) (cs : List Char) : Option (Json × List Char) :=
  let p := digitSpan cs
  match p.1 with
  | [] => none
  | '0' :: _ :: _ => none
  | ds =>
    let value : Int := Int.ofNat (digitsAccum 0 ds)
    match p.2 with
    | [] => some (.num (if neg then -value else value), [])
    | c :: _ =>
      if c = '.' ∨ c = 'e' ∨ c = 'E' then none
      else some (.num (if neg then -value else value), p.2)

mutual

/-- Fuel-indexed recursive-descent parser for one JSON value; returns the
value and the unconsumed rest of the input. -/
def parseValue : Nat → List Char → Option (Json × List Char)
  | 0, _ => none
  | n + 1, cs =>
    match dropBlanks cs with
    | [] => none
    | c :: cs1 =>
      if c = 'n' then (expectChars ['u', 'l', 'l'] cs1).map (fun r => (.null, r))
      else if c = 't' then (expectChars ['r', 'u', 'e'] cs1).map (fun r => (.bool true, r))
      else if c = 'f' then (expectChars ['a', 'l', 's', 'e'] cs1).map (fun r => (.bool false, r))
      else if c = '"' then
        (parseStringRest (cs1.length + 1) cs1).map (fun p => (.str (String.mk p.1), p.2))
      else if c = '[' then
        let cs2 := dropBlanks cs1
        if headIs ']' cs2 then some (.arr [], cs2.tail)
        else (parseItems n cs2).map (fun p => (.arr p.1, p.2))
      else if c = '\x7b' then
        let cs2 := dropBlanks cs1
        if headIs '\x7d' cs2 then some (.obj [], cs2.tail)
        else (parseFields n cs2).map (fun p => (.obj p.1, p.2))
      else if c = '-' then parseNumTail true cs1
      else if isDecDigit c then parseNumTail false (c :: cs1)
      else none

/-- Parse the elements of a nonempty JSON array up to and including the
closing bracket. -/
def parseItems : Nat → List Char → Option (List Json × List Char)
  | 0, _ => none
  | n + 1, cs =>
    match parseValue n cs with
    | none => none
    | some (v, r) =>
      match dropBlanks r with
      | [] => none
      | c :: r2 =>
        if c = ',' then
          match parseItems n r2 with
          | some (vs, r3) => some (v :: vs, r3)
          | none => none
        else if c = ']' then some ([v], r2)
        else none

/-- Parse the members of a nonempty JSON object up to and including the
closing brace. -/
def parseFields : Nat → List Char → Option (List (String × Json) × List Char)
  | 0, _ => none
  | n + 1, cs =>
    match dropBlanks cs with
    | [] => none
    | c :: cs1 =>
      if c = '"' then
        match parseStringRest (cs1.length + 1) cs1 with
        | none => none
        | some (k, r1) =>
          match dropBlanks r1 with
          | [] => none
          | c2 :: r2 =>
            if c2 = ':' then
              match parseValue n r2 with
              | none => none
              | some (v, r3) =>
                match dropBlanks r3 with
                | [] => none
                | c3 :: r4 =>
                  if c3 = ',' then
                    match parseFields n r4 with
                    | some (ms, r5) => some ((String.mk k, v) :: ms, r5)
                    | none => none
                  else if c3 = '\x7d' then some ([(String.mk k, v)], r4)
                  else none
            else none
      else none

end

/-- `JSON.parse`: parse one value, allow trailing whitespace only.  The fuel
`2 * length + 2` dominates the parser's call depth on every input: between
two successive fuel decrements at the same input position at least one
character has been consumed. -/
def parseJson (s : String) : Option Json :=
  match parseValue (2 * s.data.length + 2) s.data with
  | some (j, rest) =>
    match dropBlanks rest with
    | [] => some j
    | _ => none
  | none => none

/-- Property lookup on a parsed JSON value, as JS property access `item.k`:
defined on objects (with the last duplicate key winning, as in `JSON.parse`),
`undefined` (`none`) on every other value. -/
def lookupLast : List (String × Json) → String → Option Json
  | [], _ => none
  | (k1, v) :: rest, k =>
    match lookupLast rest k with
    | some r => some r
    | none => if k1 = k then some v else none

/-- Reads `item.k` where `item` came from `JSON.parse`. -/
def jsonField (j : Json) (k : String) : Option Json :=
  match j with
  | .obj kvs => lookupLast kvs k
  | _ => none

/-- One history record, with the field names and the field order of the
object literal built in `addToLocalHistory`. -/
structure HistoryItem where
  id : String
  user_input : String
  pickup_lines : List String
  timestamp : String
  using_local : Bool
deriving DecidableEq

/-- The fields of a successful `/generate` response that `addToLocalHistory`
reads from its `data` argument. -/
structure GenData where
  input : String
  pickup_lines : List String
  timestamp : String
  using_local : Bool
deriving DecidableEq

/-- The record object `addToLocalHistory` builds: `data` fields plus the
freshly generated id (`Date.now().toString() + Math.random().toString(36)
.substr(2, 9)`, supplied here as the oracle value `fresh`). -/
def mkHistoryItem (d : GenData) (fresh : String) : HistoryItem :=
  ⟨fresh, d.input, d.pickup_lines, d.timestamp, d.using_local⟩

/-- JSON encoding of one record, member order as in the source's object
literal. -/
def encodeItem (it : HistoryItem) : Json :=
  .obj [("id", .str it.id),
        ("user_input", .str it.user_input),
        ("pickup_lines", .arr (it.pickup_lines.map .str)),
        ("timestamp", .str it.timestamp),
        ("using_local", .bool it.using_local)]

/-- JSON encoding of a whole record sequence. -/
def encodeHistory (l : List HistoryItem) : Json :=
  .arr (l.map encodeItem)

/-- Source `getLocalHistory`: read the value under `"shai-pickup-history"`
(`none` models an absent key), return `[]` for an absent or falsy (empty)
value, otherwise `JSON.parse` it; a parse failure is caught and turned into
`[]`.  The function is total: no failure propagates to the caller. -/
def getLocalHistory (st : Option String) : Json :=
  match st with
  | none => .arr []
  | some s =>
    if s = "" then .arr []
    else
      match parseJson s with
      | some j => j
      | none => .arr []

/-- Source `saveLocalHistory`: persist `JSON.stringify` of the value as the
new content of the storage slot. -/
def saveLocalHistory (j : Json) : Option String :=
  some (stringifyJson j)

/-- The filter predicate of `deleteHistoryItem`: `item.id !== id`.  The
argument `id` is a string, so the strict inequality holds unless `item.id`
is a string with the same content. -/
def keepItem (id : String) (item : Json) : Bool :=
  match jsonField item "id" with
  | some (.str s) => s != id
  | _ => true

/-- Source `addToLocalHistory`: load, build the record, `unshift` it,
truncate with `splice(50)` when the length exceeds 50, save.  When the
persisted value parses to a non-array, `history.unshift` throws and the
`try/catch` leaves the storage untouched.  The second component is the JS
return value of the method: there is no `return` statement, so it is
`undefined` (`none`). -/
def addToLocalHistory (d : GenData) (fresh : String) (st : Option String) :
    Option String × Option HistoryItem :=
  (match getLocalHistory st with
   | .arr xs =>
     let l := encodeItem (mkHistoryItem d fresh) :: xs
     let l2 := if l.length > 50 then l.take 50 else l
     saveLocalHistory (.arr l2)
   | _ => st,
   none)

/-- Source `deleteHistoryItem`: load, filter out the records whose `id`
strictly equals the argument, save.  On a non-array parse `history.filter`
throws and the `try/catch` leaves the storage untouched.  The second
component is the JS return value: there is no `return` statement, so it is
`undefined` (`none`), not a boolean. -/
def deleteHistoryItem (id : String) (st : Option String) :
    Option String × Option Bool :=
  (match getLocalHistory st with
   | .arr xs => saveLocalHistory (.arr (xs.filter (keepItem id)))
   | _ => st,
   none)

/-- Outcome of `clearHistory` surfaced to the user. -/
inductive ClearOutcome where
  | cancelled : ClearOutcome
  | success : ClearOutcome
  | failureShown : ClearOutcome
deriving DecidableEq

/-- Source `clearHistory`: do nothing unless the confirmation dialog is
accepted; then `localStorage.removeItem` erases the key, or, when the
underlying erase fails (`eraseOk = false`), the exception is caught and a
non-fatal error message is shown, the storage left as it was. -/
def clearHistory (confirmed eraseOk : Bool) (st : Option String) :
    Option String × ClearOutcome :=
  if confirmed then
    if eraseOk then (none, .success) else (st, .failureShown)
  else (st, .cancelled)

/-- One store mutation, for reachability statements.  The id oracle value of
each `add` is recorded in the operation. -/
inductive HOp where
  | add : GenData → String → HOp
  | remove : String → HOp
  | clear : HOp

/-- Apply one mutation to the storage slot (a confirmed, successful clear). -/
def applyOp (op : HOp) (st : Option String) : Option String :=
  match op with
  | .add d fresh => (addToLocalHistory d fresh st).1
  | .remove id => (deleteHistoryItem id st).1
  | .clear => (clearHistory true true st).1

/-- Run a sequence of mutations from a given storage slot. -/
def runOpsFrom (ops : List HOp) (st : Option String) : Option String :=
  ops.foldl (fun s op => applyOp op s) st

/-- Run a sequence of mutations from the empty store. -/
def runOps (ops : List HOp) : Option String :=
  runOpsFrom ops none

/-- Does some record currently held carry this id? -/
def storeHasId (f : String) (st : Option String) : Bool :=
  match getLocalHistory st with
  | .arr xs => xs.any (fun item => !keepItem f item)
  | _ => false

/-- Along a run, every `add` draws an id oracle value distinct from every id
currently held (what a collision-free id generator would guarantee). -/
def freshOk : List HOp → Option String → Bool
  | [], _ => true
  | .add d fresh :: rest, st =>
    !storeHasId fresh st && freshOk rest (applyOp (.add d fresh) st)
  | op :: rest, st => freshOk rest (applyOp op st)

/-- Fold a sequence of `add` calls over a storage slot. -/
def foldAdds (adds : List (GenData × String)) (st : Option String) : Option String :=
  adds.foldl (fun s p => (addToLocalHistory p.1 p.2 s).1) st

mutual

/-- Fuel sufficient for `parseValue` on the stringification of a value. -/
def jfuel : Json → Nat
  | .arr xs => 1 + lfuel xs
  | .obj kvs => 1 + mfuel kvs
  | _ => 1

/-- Fuel sufficient for `parseItems` on stringified array elements. -/
def lfuel : List Json → Nat
  | [] => 0
  | x :: xs => 1 + jfuel x + lfuel xs

/-- Fuel sufficient for `parseFields` on stringified object members. -/
def mfuel : List (String × Json) → Nat
  | [] => 0
  | (_, v) :: rest => 1 + jfuel v + mfuel rest

end

/-- Sample `/generate` response data used in witnesses (the spec's "coffee
shop" scenario). -/
def sampleData : GenData :=
  ⟨"coffee shop", ["line1", "line2"], "T1", true⟩

/-- A second sample input, used in the duplicate-id counterexample. -/
def dupData : GenData :=
  ⟨"dup input", ["x"], "T2", false⟩

/-- A sample record already present in a store. -/
def sampleItem : HistoryItem :=
  ⟨"id1", "u", ["p"], "t", true⟩

theorem one_le_jfuel (j : Json) : 1 ≤ jfuel j := by
  cases j <;> simp [jfuel]

theorem dropBlanks_cons_of_not_blank (c : Char) (cs : List Char) (h : isBlank c = false) :
    dropBlanks (c :: cs) = c :: cs := by
  simp [dropBlanks, h]

theorem hexCharVal_lowHexChar : ∀ n : Nat, n < 16 → hexCharVal (lowHexChar n) = some n := by
  decide

theorem parseStringRest_escList (l : List Char) :
    ∀ (fuel : Nat) (rest : List Char), (escList l).length < fuel →
      parseStringRest fuel (escList l ++ '"' :: rest) = some (l, rest) := by
  induction l with
  | nil =>
    intro fuel rest hf
    cases fuel with
    | zero => simp [escList] at hf
    | succ f => simp [escList, parseStringRest]
  | cons c l ih =>
    intro fuel rest hf
    by_cases h1 : c = '"'
    · subst h1
      simp [escList, escChar] at hf ⊢
      cases fuel with
      | zero => omega
      | succ f => simp [parseStringRest, ih f rest (by omega)]

    by_cases h2 : c = '\\'
    · subst h2
      simp [escList, escChar] at hf ⊢
      cases fuel with
      | zero => omega
      | succ f => simp [parseStringRest, ih f rest (by omega)]

    by_cases h3 : c = '\x08'
    · subst h3
      simp [escList, escChar] at hf ⊢
      cases fuel with
      | zero => omega
      | succ f => simp [parseStringRest, ih f rest (by omega)]

    by_cases h4 : c = '\x09'
    · subst h4
      simp [escList, escChar] at hf ⊢
      cases fuel with
      | zero => omega
      | succ f => simp [parseStringRest, ih f rest (by omega)]

    by_cases h5 : c = '\x0a'
    · subst h5
      simp [escList, escChar] at hf ⊢
      cases fuel with
      | zero => omega
      | succ f => simp [parseStringRest, ih f rest (by omega)]

    by_cases h6 : c = '\x0c'
    · subst h6
      simp [escList, escChar] at hf ⊢
      cases fuel with
      | zero => omega
      | succ f => simp [parseStringRest, ih f rest (by omega)]

    by_cases h7 : c = '\x0d'
    · subst h7
      simp [escList, escChar] at hf ⊢
      cases fuel with
      | zero => omega
      | succ f => simp [parseStringRest, ih f rest (by omega)]

    by_cases h8 : c.toNat < 0x20
    · have hdiv : c.toNat / 16 < 16 := by omega
      have hmod : c.toNat % 16 < 16 := by omega
      have hv : c.toNat / 16 * 16 + c.toNat % 16 = c.toNat := by omega
      have hlt : c.toNat < 0xD800 := by omega
      have h0 : hexCharVal '0' = some 0 := rfl
      simp [escList, escChar, h1, h2, h3, h4, h5, h6, h7, h8] at hf ⊢
      cases fuel with
      | zero => omega
      | succ f =>
        cases f with
        | zero => omega
        | succ f1 =>
          simp [parseStringRest, parseHexEscape, h0, hexCharVal_lowHexChar _ hdiv,
            hexCharVal_lowHexChar _ hmod, hlt, hv, ih f1 rest (by omega)]
    · simp [escList, escChar, h1, h2, h3, h4, h5, h6, h7, h8] at hf ⊢
      cases fuel with
      | zero => omega
      | succ f => simp [parseStringRest, h1, h2, h8, ih f rest (by omega)]

theorem mkData (s : String) : String.mk s.data = s := rfl

theorem emitJson_head (j : Json) (h : numFree j = true) :
    ∃ c cs, emitJson j = c :: cs ∧ isBlank c = false ∧ c ≠ ']' ∧ c ≠ '\x7d' := by
  cases j with
  | null =>
    exact ⟨'n', ['u', 'l', 'l'], by simp [emitJson], by decide, by decide, by decide⟩
  | bool b =>
    cases b with
    | true =>
      exact ⟨'t', ['r', 'u', 'e'], by simp [emitJson], by decide, by decide, by decide⟩
    | false =>
      exact ⟨'f', ['a', 'l', 's', 'e'], by simp [emitJson], by decide, by decide,
        by decide⟩
  | num i => simp [numFree] at h
  | str s =>
    exact ⟨'"', escList s.data ++ ['"'], by simp [emitJson, escString], by decide,
      by decide, by decide⟩
  | arr xs =>
    exact ⟨'[', emitList xs ++ [']'], by simp [emitJson], by decide, by decide,
      by decide⟩
  | obj kvs =>
    exact ⟨'\x7b', emitMembers kvs ++ ['\x7d'], by simp [emitJson], by decide,
      by decide, by decide⟩

theorem parse_emit : ∀ n : Nat,
    (∀ (j : Json) (rest : List Char), numFree j = true → jfuel j ≤ n →
      parseValue n (emitJson j ++ rest) = some (j, rest)) ∧
    (∀ (xs : List Json) (rest : List Char), numFreeList xs = true → xs ≠ [] →
      lfuel xs ≤ n →
      parseItems n (emitList xs ++ ']' :: rest) = some (xs, rest)) ∧
    (∀ (kvs : List (String × Json)) (rest : List Char), numFreeMembers kvs = true →
      kvs ≠ [] → mfuel kvs ≤ n →
      parseFields n (emitMembers kvs ++ '\x7d' :: rest) = some (kvs, rest)) := by
  intro n
  induction n with
  | zero =>
    refine ⟨?_, ?_, ?_⟩
    · intro j rest _ hfuel
      have := one_le_jfuel j
      omega
    · intro xs rest _ hne hfuel
      cases xs with
      | nil => exact absurd rfl hne
      | cons x xs2 => simp [lfuel] at hfuel
    · intro kvs rest _ hne hfuel
      cases kvs with
      | nil => exact absurd rfl hne
      | cons kv kvs2 =>
        obtain ⟨k, v⟩ := kv
        simp [mfuel] at hfuel
  | succ n ih =>
    obtain ⟨ihV, ihE, ihM⟩ := ih
    refine ⟨?_, ?_, ?_⟩
    · intro j rest hnf hfuel
      cases j with
      | null => simp [emitJson, parseValue, dropBlanks, isBlank, expectChars]
      | bool b => cases b <;> simp [emitJson, parseValue, dropBlanks, isBlank, expectChars]
      | num i => simp [numFree] at hnf
      | str s =>
        have hx := parseStringRest_escList s.data
          ((escList s.data ++ '"' :: rest).length + 1) rest
          (by simp [List.length_append]; omega)
        simp only [List.length_append, List.length_cons] at hx
        simp [emitJson, escString, parseValue, dropBlanks, isBlank, hx, mkData]
      | arr xs =>
        cases xs with
        | nil => simp [emitJson, emitList, parseValue, dropBlanks, isBlank, headIs]
        | cons x xs2 =>
          simp only [numFree, numFreeList, Bool.and_eq_true] at hnf
          obtain ⟨c, cs, hemit, hws, hbr, _⟩ := emitJson_head x hnf.1
          have hscrut : dropBlanks (emitList (x :: xs2) ++ ']' :: rest)
              = emitList (x :: xs2) ++ ']' :: rest := by
            cases xs2 <;>
              simp [emitList, hemit, List.cons_append, dropBlanks_cons_of_not_blank, hws]
          have hhead : headIs ']' (emitList (x :: xs2) ++ ']' :: rest) = false := by
            cases xs2 <;> simp [emitList, hemit, List.cons_append, headIs, hbr]
          have hE := ihE (x :: xs2) rest
            (by simp [numFreeList, Bool.and_eq_true, hnf.1, hnf.2]) (by simp)
            (by simp [jfuel] at hfuel; omega)
          simp [emitJson, parseValue, dropBlanks, isBlank, hscrut, hhead, hE]
      | obj kvs =>
        cases kvs with
        | nil => simp [emitJson, emitMembers, parseValue, dropBlanks, isBlank, headIs]
        | cons kv kvs2 =>
          obtain ⟨k, v⟩ := kv
          simp only [numFree, numFreeMembers, Bool.and_eq_true] at hnf
          have hscrut : dropBlanks (emitMembers ((k, v) :: kvs2) ++ '\x7d' :: rest)
              = emitMembers ((k, v) :: kvs2) ++ '\x7d' :: rest := by
            cases kvs2 <;>
              simp [emitMembers, escString, List.cons_append, dropBlanks_cons_of_not_blank,
                isBlank]
          have hhead : headIs '\x7d' (emitMembers ((k, v) :: kvs2) ++ '\x7d' :: rest)
              = false := by
            cases kvs2 <;> simp [emitMembers, escString, List.cons_append, headIs]
          have hM := ihM ((k, v) :: kvs2) rest
            (by simp [numFreeMembers, Bool.and_eq_true, hnf.1, hnf.2]) (by simp)
            (by simp [jfuel] at hfuel; omega)
          simp [emitJson, parseValue, dropBlanks, isBlank, hscrut, hhead, hM]
    · intro xs rest hnf hne hfuel
      cases xs with
      | nil => exact absurd rfl hne
      | cons x xs2 =>
        simp only [numFreeList, Bool.and_eq_true] at hnf
        cases xs2 with
        | nil =>
          have hV := ihV x (']' :: rest) hnf.1 (by simp [lfuel] at hfuel; omega)
          simp [emitList, parseItems, hV, dropBlanks, isBlank]
        | cons y t =>
          have hV := ihV x (',' :: (emitList (y :: t) ++ ']' :: rest)) hnf.1
            (by simp [lfuel] at hfuel; omega)
          have hE := ihE (y :: t) rest hnf.2 (by simp)
            (by simp [lfuel] at hfuel ⊢; omega)
          simp [emitList, parseItems, List.cons_append, List.append_assoc, hV, hE,
            dropBlanks, isBlank]
    · intro kvs rest hnf hne hfuel
      cases kvs with
      | nil => exact absurd rfl hne
      | cons kv kvs2 =>
        obtain ⟨k, v⟩ := kv
        simp only [numFreeMembers, Bool.and_eq_true] at hnf
        cases kvs2 with
        | nil =>
          have hV := ihV v ('\x7d' :: rest) hnf.1 (by simp [mfuel] at hfuel; omega)
          have hkey := parseStringRest_escList k.data
            ((escList k.data ++ '"' :: (':' :: (emitJson v ++ '\x7d' :: rest))).length + 1)
            (':' :: (emitJson v ++ '\x7d' :: rest))
            (by simp [List.length_append]; omega)
          simp only [List.length_append, List.length_cons] at hkey
          simp [emitMembers, parseFields, escString, List.cons_append,
            List.append_assoc, dropBlanks, isBlank, hkey, hV, mkData]
        | cons m t =>
          have hV := ihV v (',' :: (emitMembers (m :: t) ++ '\x7d' :: rest)) hnf.1
            (by simp [mfuel] at hfuel; omega)
          have hM := ihM (m :: t) rest hnf.2 (by simp)
            (by simp [mfuel] at hfuel ⊢; omega)
          have hkey := parseStringRest_escList k.data
            ((escList k.data ++ '"' ::
              (':' :: (emitJson v ++ ',' :: (emitMembers (m :: t) ++ '\x7d' :: rest)))).length + 1)
            (':' :: (emitJson v ++ ',' :: (emitMembers (m :: t) ++ '\x7d' :: rest)))
            (by simp [List.length_append]; omega)
          simp only [List.length_append, List.length_cons] at hkey
          simp [emitMembers, parseFields, escString, List.cons_append,
            List.append_assoc, dropBlanks, isBlank, hkey, hV, hM, mkData]

theorem jfuel_le_emit : ∀ n : Nat,
    (∀ j : Json, numFree j = true → jfuel j ≤ n →
      jfuel j ≤ 2 * (emitJson j).length) ∧
    (∀ xs : List Json, numFreeList xs = true → lfuel xs ≤ n →
      lfuel xs ≤ 2 * (emitList xs).length + 1) ∧
    (∀ kvs : List (String × Json), numFreeMembers kvs = true → mfuel kvs ≤ n →
      mfuel kvs ≤ 2 * (emitMembers kvs).length + 1) := by
  intro n
  induction n with
  | zero =>
    refine ⟨?_, ?_, ?_⟩
    · intro j _ hfuel
      have := one_le_jfuel j
      omega
    · intro xs hnf hfuel
      cases xs with
      | nil => simp [lfuel]
      | cons x xs2 => simp [lfuel] at hfuel
    · intro kvs hnf hfuel
      cases kvs with
      | nil => simp [mfuel]
      | cons kv kvs2 =>
        obtain ⟨k, v⟩ := kv
        simp [mfuel] at hfuel
  | succ n ih =>
    obtain ⟨ihV, ihE, ihM⟩ := ih
    refine ⟨?_, ?_, ?_⟩
    · intro j hnf hfuel
      cases j with
      | null => simp [jfuel, emitJson]
      | bool b => cases b <;> simp [jfuel, emitJson]
      | num i => simp [numFree] at hnf
      | str s => simp [jfuel, emitJson, escString]; omega
      | arr xs =>
        simp only [numFree] at hnf
        simp only [jfuel] at hfuel ⊢
        have := ihE xs hnf (by omega)
        simp [emitJson, List.length_append]
        omega
      | obj kvs =>
        simp only [numFree] at hnf
        simp only [jfuel] at hfuel ⊢
        have := ihM kvs hnf (by omega)
        simp [emitJson, List.length_append]
        omega
    · intro xs hnf hfuel
      cases xs with
      | nil => simp [lfuel]
      | cons x xs2 =>
        simp only [numFreeList, Bool.and_eq_true] at hnf
        simp only [lfuel] at hfuel ⊢
        have hx := ihV x hnf.1 (by omega)
        have hr := ihE xs2 hnf.2 (by omega)
        cases xs2 with
        | nil =>
          simp [emitList, lfuel]
          omega
        | cons y t =>
          simp [emitList, List.length_append]
          omega
    · intro kvs hnf hfuel
      cases kvs with
      | nil => simp [mfuel]
      | cons kv kvs2 =>
        obtain ⟨k, v⟩ := kv
        simp only [numFreeMembers, Bool.and_eq_true] at hnf
        simp only [mfuel] at hfuel ⊢
        have hx := ihV v hnf.1 (by omega)
        have hr := ihM kvs2 hnf.2 (by omega)
        cases kvs2 with
        | nil =>
          simp [emitMembers, escString, List.length_append, mfuel]
          omega
        | cons m t =>
          simp [emitMembers, escString, List.length_append]
          omega

theorem dataMk (l : List Char) : (String.mk l).data = l := rfl

/-- Parsing the stringification of a number-free JSON value gives the value
back. -/
theorem parseJson_stringify (j : Json) (h : numFree j = true) :
    parseJson (stringifyJson j) = some j := by
  have h1 : jfuel j ≤ 2 * (emitJson j).length + 2 := by
    have := (jfuel_le_emit (jfuel j)).1 j h le_rfl
    omega
  have h2 := (parse_emit (2 * (emitJson j).length + 2)).1 j [] h h1
  simp only [List.append_nil] at h2
  simp [parseJson, stringifyJson, dataMk, h2, dropBlanks]

theorem numFreeList_map_str (l : List String) :
    numFreeList (l.map Json.str) = true := by
  induction l with
  | nil => simp [numFreeList]
  | cons s l ih => simp [numFreeList, numFree, ih]

theorem numFree_encodeItem (it : HistoryItem) : numFree (encodeItem it) = true := by
  simp [encodeItem, numFree, numFreeMembers, numFreeList_map_str]

theorem numFreeList_map_encodeItem (l : List HistoryItem) :
    numFreeList (l.map encodeItem) = true := by
  induction l with
  | nil => simp [numFreeList]
  | cons it l ih => simp [numFreeList, numFree_encodeItem, ih]

theorem stringify_arr_ne_empty (xs : List Json) : stringifyJson (Json.arr xs) ≠ "" := by
  intro h
  have h2 := congrArg String.data h
  have h3 : ("" : String).data = [] := rfl
  simp [stringifyJson, dataMk, emitJson, h3] at h2

/-- Saving an encoded array and loading it back returns the array: the store's
persistence round trip. -/
theorem getLocalHistory_save_arr (xs : List Json) (h : numFreeList xs = true) :
    getLocalHistory (saveLocalHistory (.arr xs)) = .arr xs := by
  have hj : numFree (Json.arr xs) = true := by simp [numFree, h]
  simp [saveLocalHistory, getLocalHistory, stringify_arr_ne_empty,
    parseJson_stringify _ hj]

theorem jsonField_encodeItem (it : HistoryItem) :
    jsonField (encodeItem it) "id" = some (.str it.id) := rfl

theorem keepItem_encodeItem (x : String) (it : HistoryItem) :
    keepItem x (encodeItem it) = (it.id != x) := by
  simp [keepItem, jsonField_encodeItem]

theorem filter_keep_encode (x : String) (l : List HistoryItem) :
    (l.map encodeItem).filter (keepItem x)
      = (l.filter (fun it => it.id != x)).map encodeItem := by
  induction l with
  | nil => simp
  | cons it l ih =>
    cases h : (it.id != x) with
    | true => simp [List.filter_cons, keepItem_encodeItem, h, ih]
    | false => simp [List.filter_cons, keepItem_encodeItem, h, ih]

theorem addToLocalHistory_state (d : GenData) (f : String) (st : Option String)
    (l : List HistoryItem) (h : getLocalHistory st = encodeHistory l) :
    (addToLocalHistory d f st).1
      = saveLocalHistory (encodeHistory ((mkHistoryItem d f :: l).take 50)) := by
  simp only [addToLocalHistory, h, encodeHistory]
  by_cases hlen : 50 < l.length + 1
  · simp [List.length_cons, List.length_map, hlen, List.take_succ_cons,
      List.map_take]
  · have h49 : (List.map encodeItem l).length ≤ 49 := by
      simp only [List.length_map]
      omega
    have h49b : l.length ≤ 49 := by omega
    simp [List.length_cons, List.length_map, hlen, List.take_succ_cons,
      List.take_of_length_le h49, List.take_of_length_le h49b]

theorem getLocalHistory_add (d : GenData) (f : String) (st : Option String)
    (l : List HistoryItem) (h : getLocalHistory st = encodeHistory l) :
    getLocalHistory (addToLocalHistory d f st).1
      = encodeHistory ((mkHistoryItem d f :: l).take 50) := by
  rw [addToLocalHistory_state d f st l h]
  have := getLocalHistory_save_arr (((mkHistoryItem d f :: l).take 50).map encodeItem)
    (numFreeList_map_encodeItem _)
  simpa [encodeHistory] using this

theorem deleteHistoryItem_state (x : String) (st : Option String)
    (l : List HistoryItem) (h : getLocalHistory st = encodeHistory l) :
    (deleteHistoryItem x st).1
      = saveLocalHistory (encodeHistory (l.filter (fun it => it.id != x))) := by
  simp only [deleteHistoryItem, h, encodeHistory]
  simp [filter_keep_encode]

theorem getLocalHistory_delete (x : String) (st : Option String)
    (l : List HistoryItem) (h : getLocalHistory st = encodeHistory l) :
    getLocalHistory (deleteHistoryItem x st).1
      = encodeHistory (l.filter (fun it => it.id != x)) := by
  rw [deleteHistoryItem_state x st l h]
  have := getLocalHistory_save_arr
    ((l.filter (fun it => it.id != x)).map encodeItem) (numFreeList_map_encodeItem _)
  simpa [encodeHistory] using this

theorem addToLocalHistory_ret (d : GenData) (f : String) (st : Option String) :
    (addToLocalHistory d f st).2 = none := rfl

theorem deleteHistoryItem_ret (x : String) (st : Option String) :
    (deleteHistoryItem x st).2 = none := rfl

/-- Loading right after saving an encoded record sequence returns it. -/
theorem getLocalHistory_saveHistory (l : List HistoryItem) :
    getLocalHistory (saveLocalHistory (encodeHistory l)) = encodeHistory l := by
  simpa [encodeHistory] using
    getLocalHistory_save_arr (l.map encodeItem) (numFreeList_map_encodeItem l)

theorem take_append_take (a b : List HistoryItem) (n : Nat) :
    (a ++ b.take n).take n = (a ++ b).take n := by
  rw [List.take_append_eq_append_take, List.take_append_eq_append_take,
    List.take_take]
  congr 2
  omega

/-- Content of the store after a sequence of `add` calls over a store of at
most 50 records: the 50 newest among the added records (newest first)
followed by the old ones. -/
theorem foldAdds_bounded :
    ∀ (adds : List (GenData × String)) (st : Option String) (l : List HistoryItem),
      getLocalHistory st = encodeHistory l → l.length ≤ 50 →
      getLocalHistory (foldAdds adds st)
        = encodeHistory
            (((adds.map (fun p => mkHistoryItem p.1 p.2)).reverse ++ l).take 50) := by
  intro adds
  induction adds with
  | nil =>
    intro st l h hlen
    simpa [foldAdds, List.take_of_length_le hlen] using h
  | cons p rest ih =>
    intro st l h hlen
    have hstep := getLocalHistory_add p.1 p.2 st l h
    have hlen2 : ((mkHistoryItem p.1 p.2 :: l).take 50).length ≤ 50 := by
      simp [List.length_take]
    have hb := ih (addToLocalHistory p.1 p.2 st).1 _ hstep hlen2
    rw [show foldAdds (p :: rest) st
        = foldAdds rest (addToLocalHistory p.1 p.2 st).1 from rfl, hb]
    congr 1
    rw [take_append_take]
    simp [List.append_assoc]

theorem any_not_keep (f : String) (l : List HistoryItem) :
    (l.map encodeItem).any (fun item => !keepItem f item)
      = l.any (fun it => it.id == f) := by
  induction l with
  | nil => rfl
  | cons it l ih => simp [List.any_cons, keepItem_encodeItem, bne, ih]

theorem storeHasId_encode (f : String) (st : Option String) (l : List HistoryItem)
    (h : getLocalHistory st = encodeHistory l) :
    storeHasId f st = l.any (fun it => it.id == f) := by
  simp only [storeHasId, h, encodeHistory]
  exact any_not_keep f l

/-- Along a run whose `add` steps always draw an id not currently held, the
store stays an encoded record sequence with pairwise distinct ids. -/
theorem freshOk_run :
    ∀ (ops : List HOp) (st : Option String) (l : List HistoryItem),
      getLocalHistory st = encodeHistory l → (l.map HistoryItem.id).Nodup →
      freshOk ops st = true →
      ∃ l2, getLocalHistory (runOpsFrom ops st) = encodeHistory l2 ∧
        (l2.map HistoryItem.id).Nodup := by
  intro ops
  induction ops with
  | nil =>
    intro st l h hnd _
    exact ⟨l, by simpa [runOpsFrom] using h, hnd⟩
  | cons op rest ih =>
    intro st l h hnd hok
    have hstep : runOpsFrom (op :: rest) st = runOpsFrom rest (applyOp op st) := rfl
    rw [hstep]
    cases op with
    | add d fresh =>
      simp only [freshOk, Bool.and_eq_true, Bool.not_eq_true'] at hok
      have hany : l.any (fun it => it.id == fresh) = false := by
        rw [← storeHasId_encode fresh st l h]
        exact hok.1
      have hnotin : fresh ∉ l.map HistoryItem.id := by
        intro hmem
        rcases List.mem_map.1 hmem with ⟨it, hit, hid⟩
        have := List.any_eq_false.1 hany it hit
        simp [hid] at this
      have hst2 : getLocalHistory (applyOp (HOp.add d fresh) st)
          = encodeHistory ((mkHistoryItem d fresh :: l).take 50) :=
        getLocalHistory_add d fresh st l h
      have hnd2 : (((mkHistoryItem d fresh :: l).take 50).map HistoryItem.id).Nodup := by
        rw [List.map_take]
        simp only [List.map_cons, List.take_succ_cons, mkHistoryItem]
        refine List.Nodup.cons ?_ (List.Nodup.sublist (List.take_sublist _ _) hnd)
        intro hmem
        exact hnotin (List.take_subset _ _ hmem)
      exact ih _ _ hst2 hnd2 hok.2
    | remove x =>
      simp only [freshOk] at hok
      have hst2 : getLocalHistory (applyOp (HOp.remove x) st)
          = encodeHistory (l.filter (fun it => it.id != x)) :=
        getLocalHistory_delete x st l h
      have hnd2 : ((l.filter (fun it => it.id != x)).map HistoryItem.id).Nodup :=
        List.Nodup.sublist (List.Sublist.map _ (List.filter_sublist l)) hnd
      exact ih _ _ hst2 hnd2 hok
    | clear =>
      simp only [freshOk] at hok
      have hst2 : getLocalHistory (applyOp HOp.clear st) = encodeHistory [] := by
        simp [applyOp, clearHistory, getLocalHistory, encodeHistory]
      exact ih _ _ hst2 (by simp) hok

theorem take50_cons (x : HistoryItem) (l : List HistoryItem) :
    (x :: l).take 50 = x :: l.take 49 := rfl

/-- Claim C1: for every store state and sequence of `add` calls, after each add the
store's size is `min(priorSize+1, 50)`; and after more than 50 adds without
intervening remove/clear, `load()` returns exactly the 50 most recently
added records, newest first, and no earlier record. -/
theorem C1_size_cap_and_fifo_eviction :
    (∀ (d : GenData) (f : String) (st : Option String) (l : List HistoryItem),
      getLocalHistory st = encodeHistory l →
      ∃ l2, getLocalHistory (addToLocalHistory d f st).1 = encodeHistory l2 ∧
        l2.length = min (l.length + 1) 50) ∧
    (∀ (adds : List (GenData × String)) (st : Option String) (l : List HistoryItem),
      getLocalHistory st = encodeHistory l → 50 < adds.length →
      getLocalHistory (foldAdds adds st)
        = encodeHistory
            (((adds.map (fun p => mkHistoryItem p.1 p.2)).reverse).take 50)) := by
  constructor
  · intro d f st l h
    refine ⟨_, getLocalHistory_add d f st l h, ?_⟩
    simp [List.length_take]
    omega
  · intro adds st l h hlen
    cases adds with
    | nil => simp at hlen
    | cons p rest =>
      have hstep := getLocalHistory_add p.1 p.2 st l h
      have hb := foldAdds_bounded rest (addToLocalHistory p.1 p.2 st).1 _ hstep
        (by simp [List.length_take])
      rw [show foldAdds (p :: rest) st
          = foldAdds rest (addToLocalHistory p.1 p.2 st).1 from rfl, hb]
      congr 1
      rw [take_append_take]
      have hr : 50 ≤ rest.length := by
        simp [List.length_cons] at hlen
        omega
      have h0 : 50 - rest.length = 0 := by omega
      simp only [List.map_cons, List.reverse_cons]
      rw [List.take_append_eq_append_take, List.take_append_eq_append_take]
      simp [h0]

/-- Witness for C1: one add over the empty store. -/
theorem C1_witness :
    ∃ l2, getLocalHistory (addToLocalHistory sampleData "a1" none).1
        = encodeHistory l2 ∧
      l2.length = min (([] : List HistoryItem).length + 1) 50 :=
  C1_size_cap_and_fifo_eviction.1 sampleData "a1" none [] rfl

/-- Counterexample for C2: `deleteHistoryItem` of an absent id returns
`undefined` (modelled `none`), not the boolean `false` the claim states. -/
theorem C2_counterexample :
    ¬ ((deleteHistoryItem "missing-id" none).2 = some false) := by
  simp [deleteHistoryItem_ret]

/-- Claim C2 as amended: `remove(x)` returns no value (`undefined`, not a boolean);
when no record with id `x` is present it never throws and leaves the
sequence returned by `load()` unchanged. -/
theorem C2_remove_absent_noop :
    ∀ (x : String) (st : Option String) (l : List HistoryItem),
      getLocalHistory st = encodeHistory l → (∀ it ∈ l, it.id ≠ x) →
      (deleteHistoryItem x st).2 = none ∧
      getLocalHistory (deleteHistoryItem x st).1 = getLocalHistory st := by
  intro x st l h habs
  refine ⟨rfl, ?_⟩
  rw [getLocalHistory_delete x st l h, h]
  congr 1
  apply List.filter_eq_self.2
  intro it hit
  simpa [bne] using habs it hit

/-- Witness for C2: removing from the empty store. -/
theorem C2_witness :
    (deleteHistoryItem "zz" none).2 = none ∧
    getLocalHistory (deleteHistoryItem "zz" none).1 = getLocalHistory none :=
  C2_remove_absent_noop "zz" none [] rfl (by simp)

/-- Claim C3: `add(u, lines, t, local)` followed by `load()` yields a record with
exactly those field values and the freshly generated id at the head, the id
not occurring among the remaining records (assuming the fresh draw differs
from the ids currently held, which the generation scheme is designed for). -/
theorem C3_add_load_roundtrip :
    ∀ (u : String) (lines : List String) (t : String) (ul : Bool) (fresh : String)
      (st : Option String) (l : List HistoryItem),
      getLocalHistory st = encodeHistory l → fresh ∉ l.map HistoryItem.id →
      ∃ old, getLocalHistory (addToLocalHistory ⟨u, lines, t, ul⟩ fresh st).1
          = encodeHistory (⟨fresh, u, lines, t, ul⟩ :: old) ∧
        fresh ∉ old.map HistoryItem.id := by
  intro u lines t ul fresh st l h hnot
  refine ⟨l.take 49, ?_, ?_⟩
  · rw [getLocalHistory_add ⟨u, lines, t, ul⟩ fresh st l h, take50_cons]
    simp [mkHistoryItem]
  · intro hmem
    apply hnot
    rcases List.mem_map.1 hmem with ⟨it, hit, hid⟩
    exact List.mem_map.2 ⟨it, List.take_subset 49 l hit, hid⟩

/-- Witness for C3: the spec's "coffee shop" scenario over the empty store. -/
theorem C3_witness :
    ∃ old, getLocalHistory
        (addToLocalHistory ⟨"coffee shop", ["line1", "line2"], "T1", true⟩ "a1" none).1
          = encodeHistory (⟨"a1", "coffee shop", ["line1", "line2"], "T1", true⟩ :: old) ∧
      "a1" ∉ old.map HistoryItem.id :=
  C3_add_load_roundtrip "coffee shop" ["line1", "line2"] "T1" true "a1" none [] rfl
    (by simp)

/-- Claim C4: the new record lands at index 0 and the previously stored records
keep their relative order, only truncated at the tail (prepend, never
append). -/
theorem C4_prepend_order :
    ∀ (d : GenData) (f : String) (st : Option String) (l : List HistoryItem),
      getLocalHistory st = encodeHistory l →
      getLocalHistory (addToLocalHistory d f st).1
        = encodeHistory (mkHistoryItem d f :: l.take 49) ∧
      l.take 49 <+: l := by
  intro d f st l h
  refine ⟨?_, List.take_prefix 49 l⟩
  rw [getLocalHistory_add d f st l h, take50_cons]

/-- Witness for C4: adding over a singleton store built by a previous add. -/
theorem C4_witness :
    getLocalHistory (addToLocalHistory dupData "b2"
        (saveLocalHistory (encodeHistory [sampleItem]))).1
      = encodeHistory (mkHistoryItem dupData "b2" :: [sampleItem].take 49) ∧
    [sampleItem].take 49 <+: [sampleItem] :=
  C4_prepend_order dupData "b2" (saveLocalHistory (encodeHistory [sampleItem]))
    [sampleItem] (getLocalHistory_saveHistory [sampleItem])

/-- Counterexample for C5: `deleteHistoryItem` of a present record's id returns
`undefined` (modelled `none`), not the boolean `true` the claim states. -/
theorem C5_counterexample :
    ¬ ((deleteHistoryItem "id1"
        (saveLocalHistory (encodeHistory [sampleItem]))).2 = some true) := by
  simp [deleteHistoryItem_ret]

/-- Claim C5 as amended: for a record `r` present in the store, `remove(r.id)`
(which returns no value) leaves a store whose `load()` is the original
sequence with every record of id `r.id` filtered out — in particular `r` is
gone — and the remaining records keep their relative order. -/
theorem C5_remove_present :
    ∀ (r : HistoryItem) (st : Option String) (l : List HistoryItem),
      getLocalHistory st = encodeHistory l → r ∈ l →
      (deleteHistoryItem r.id st).2 = none ∧
      getLocalHistory (deleteHistoryItem r.id st).1
        = encodeHistory (l.filter (fun it => it.id != r.id)) ∧
      r ∉ l.filter (fun it => it.id != r.id) ∧
      List.Sublist (l.filter (fun it => it.id != r.id)) l := by
  intro r st l h hr
  refine ⟨rfl, getLocalHistory_delete r.id st l h, ?_, List.filter_sublist l⟩
  intro hmem
  have := List.of_mem_filter hmem
  simp [bne] at this

/-- Witness for C5: removing the only record of a singleton store. -/
theorem C5_witness :
    (deleteHistoryItem sampleItem.id
        (saveLocalHistory (encodeHistory [sampleItem]))).2 = none ∧
    getLocalHistory (deleteHistoryItem sampleItem.id
        (saveLocalHistory (encodeHistory [sampleItem]))).1
      = encodeHistory ([sampleItem].filter (fun it => it.id != sampleItem.id)) ∧
    sampleItem ∉ [sampleItem].filter (fun it => it.id != sampleItem.id) ∧
    List.Sublist ([sampleItem].filter (fun it => it.id != sampleItem.id)) [sampleItem] :=
  C5_remove_present sampleItem (saveLocalHistory (encodeHistory [sampleItem]))
    [sampleItem] (getLocalHistory_saveHistory [sampleItem]) (by simp)

/-- Claim C6: `load()` returns the empty sequence when nothing is persisted or the
persisted string fails to parse; being a total function of the storage slot,
it never propagates a failure (the source catches and logs). -/
theorem C6_load_errors_to_empty :
    getLocalHistory none = Json.arr [] ∧
    (∀ s : String, parseJson s = none → getLocalHistory (some s) = Json.arr []) := by
  refine ⟨rfl, ?_⟩
  intro s hs
  by_cases he : s = ""
  · simp [getLocalHistory, he]
  · simp [getLocalHistory, he, hs]

/-- Witness for C6: a persisted string that is not valid JSON loads as empty. -/
theorem C6_witness :
    parseJson "corrupt!" = none ∧ getLocalHistory (some "corrupt!") = Json.arr [] :=
  ⟨rfl, C6_load_errors_to_empty.2 "corrupt!" rfl⟩

/-- Claim C7: after a confirmed, successful `clearHistory` the key is erased and
`load()` returns the empty sequence (nothing recoverable); when the erase
primitive fails, the outcome is a surfaced non-fatal error and the storage
is left untouched. -/
theorem C7_clear_semantics :
    ∀ st : Option String,
      (clearHistory true true st).1 = none ∧
      getLocalHistory (clearHistory true true st).1 = Json.arr [] ∧
      (clearHistory true true st).2 = ClearOutcome.success ∧
      (clearHistory true false st).1 = st ∧
      (clearHistory true false st).2 = ClearOutcome.failureShown := by
  intro st
  simp [clearHistory, getLocalHistory]

/-- Counterexample for C8: `addToLocalHistory` returns `undefined` (modelled
`none`), not the new record the claim states. -/
theorem C8_counterexample :
    (addToLocalHistory sampleData "f1" none).2 = none ∧
    ¬ ((addToLocalHistory sampleData "f1" none).2
        = some (mkHistoryItem sampleData "f1")) := by
  simp [addToLocalHistory_ret]

/-- Claim C8 as amended: every `add` call constructs the new record and persists
it — its id is present in the persisted sequence immediately after the
call — but the function itself returns no value. -/
theorem C8_add_persists_id :
    ∀ (d : GenData) (f : String) (st : Option String) (l : List HistoryItem),
      getLocalHistory st = encodeHistory l →
      (addToLocalHistory d f st).2 = none ∧
      ∃ l2, getLocalHistory (addToLocalHistory d f st).1 = encodeHistory l2 ∧
        mkHistoryItem d f ∈ l2 ∧ f ∈ l2.map HistoryItem.id := by
  intro d f st l h
  refine ⟨rfl, mkHistoryItem d f :: l.take 49, ?_, by simp, ?_⟩
  · rw [getLocalHistory_add d f st l h, take50_cons]
  · simp [mkHistoryItem]

/-- Witness for C8: an add over the empty store. -/
theorem C8_witness :
    (addToLocalHistory sampleData "f2" none).2 = none ∧
    ∃ l2, getLocalHistory (addToLocalHistory sampleData "f2" none).1
        = encodeHistory l2 ∧
      mkHistoryItem sampleData "f2" ∈ l2 ∧ "f2" ∈ l2.map HistoryItem.id :=
  C8_add_persists_id sampleData "f2" none [] rfl

/-- Counterexample for C9: the code does not enforce id uniqueness — when two
adds draw the same id oracle value (possible for `Date.now()` plus a random
suffix within one millisecond), the reachable store holds two records with
the same id. -/
theorem C9_counterexample :
    getLocalHistory (runOps [HOp.add dupData "dup", HOp.add dupData "dup"])
      = encodeHistory [mkHistoryItem dupData "dup", mkHistoryItem dupData "dup"] ∧
    ¬ (([mkHistoryItem dupData "dup",
         mkHistoryItem dupData "dup"].map HistoryItem.id).Nodup) := by
  constructor
  · have h1 : getLocalHistory (addToLocalHistory dupData "dup" none).1
        = encodeHistory [mkHistoryItem dupData "dup"] :=
      getLocalHistory_add dupData "dup" none [] rfl
    have h2 : getLocalHistory
          (addToLocalHistory dupData "dup" (addToLocalHistory dupData "dup" none).1).1
        = encodeHistory [mkHistoryItem dupData "dup", mkHistoryItem dupData "dup"] :=
      getLocalHistory_add dupData "dup" (addToLocalHistory dupData "dup" none).1
        [mkHistoryItem dupData "dup"] h1
    exact h2
  · decide

/-- Claim C9 as amended: id uniqueness holds in every reachable state provided each
`add` draws an id distinct from all ids currently held (what a
collision-free generator guarantees; the code itself performs no check). -/
theorem C9_unique_ids_of_fresh :
    ∀ ops : List HOp, freshOk ops none = true →
      ∃ l, getLocalHistory (runOps ops) = encodeHistory l ∧
        (l.map HistoryItem.id).Nodup := by
  intro ops hok
  exact freshOk_run ops none [] rfl (by simp) hok

/-- Witness for C9: a short run with distinct fresh ids. -/
theorem C9_witness :
    ∃ l, getLocalHistory (runOps [HOp.add sampleData "a", HOp.remove "b"])
        = encodeHistory l ∧ (l.map HistoryItem.id).Nodup :=
  C9_unique_ids_of_fresh [HOp.add sampleData "a", HOp.remove "b"] rfl

/-- Claim C10: `load()` performs no shape validation — any persisted string that
parses as JSON is returned as parsed, even when it is not an array of
records; only an absent key, a falsy value or a parse failure yield the
empty sequence. -/
theorem C10_no_shape_validation :
    ∀ (s : String) (j : Json), parseJson s = some j → getLocalHistory (some s) = j := by
  intro s j h
  by_cases he : s = ""
  · subst he
    rw [show parseJson "" = none from rfl] at h
    exact absurd h (by simp)
  · simp [getLocalHistory, he, h]

/-- Witness for C10: the persisted string `"5"` parses as the JSON number 5 and
is returned as-is by `load()`. -/
theorem C10_witness :
    parseJson "5" = some (Json.num 5) ∧ getLocalHistory (some "5") = Json.num 5 :=
  ⟨rfl, C10_no_shape_validation "5" (Json.num 5) rfl⟩

end ShAI
